import Mathlib

/-!
Verification of the speaker-clustering engine of the diarization
microservice (`src/services/diarization/main.py`).

The two clustering entry points `cluster_speakers` and
`cluster_speakers_personalized`, and the dispatch between them performed by
the `/diarize` endpoint, are modelled as Lean functions.  Embedding vectors
are lists of rationals.  The numeric routines the Python code calls from
scikit-learn / scipy (StandardScaler, AgglomerativeClustering with Ward
linkage, silhouette_score, pdist, cosine) are external collaborators; they
are abstracted as a `Backend` record of functions together with the library
guarantee that they return one output row / label per input sample, and all
theorems are proved for every backend.
-/

namespace Diarization

/-- An embedding vector: a fixed-dimension real vector, modelled over ℚ. -/
abbrev Emb := List ℚ

/-- A transcript segment as passed to clustering (start, end, text).
The clustering code receives this argument but never reads it. -/
structure Segment where
  start : ℚ
  stop : ℚ
  text : String

/-- The numeric library routines used by the clustering code, abstracted.
`standardize` models `StandardScaler().fit_transform`, `maxDist` models
`np.max(pdist(·, metric='euclidean'))`, `wardCluster n` models
`AgglomerativeClustering(n_clusters=n, linkage='ward').fit_predict`,
`silhouette` models `silhouette_score`, and `cosSim e u` models
`1 - scipy.spatial.distance.cosine(e, u)`, the cosine similarity computed by
the source.  The two final fields record the scikit-learn contract that
`fit_transform` returns one row per sample and `fit_predict` one label per
sample. -/
structure Backend where
  standardize : List Emb → List Emb
  maxDist : List Emb → ℚ
  wardCluster : ℕ → List Emb → List ℕ
  silhouette : List Emb → List ℕ → ℚ
  cosSim : Emb → Emb → ℚ
  standardize_length : ∀ X, (standardize X).length = X.length
  wardCluster_length : ∀ n X, (wardCluster n X).length = X.length

/-- Model of `np.argmax` on a list of naturals: index of the first maximal
entry.  `argmaxGo v bi i xs` scans `xs` starting at position `i`, with
current best value `v` found at position `bi`. -/
def argmaxGo (v bi i : ℕ) : List ℕ → ℕ
  | [] => bi
  | x :: xs => if v < x then argmaxGo x i (i + 1) xs else argmaxGo v bi (i + 1) xs

/-- Model of `np.argmax` (first index attaining the maximum). -/
def argmaxIdx : List ℕ → ℕ
  | [] => 0
  | x :: xs => argmaxGo x 0 1 xs

/-- Model of `np.bincount`: entry `k` counts the occurrences of `k`, for `k`
up to the maximum element. -/
def bincount (l : List ℕ) : List ℕ :=
  (List.range (l.foldr max 0 + 1)).map fun k => l.count k

/-- One iteration of the silhouette search loop of the source
(`for n in range(2, max_clusters + 1)`): cluster into `n` groups, and when
the partition has more than one distinct label, score it and keep `n` when
the score strictly beats the current best. -/
def searchStep (B : Backend) (X : List Emb) (best : ℕ × ℚ) (n : ℕ) : ℕ × ℚ :=
  let labels := B.wardCluster n X
  if 1 < labels.dedup.length then
    let s := B.silhouette X labels
    if best.2 < s then (n, s) else best
  else best

/-- The candidate cluster counts scanned by the silhouette search, in
increasing order: `2, …, maxClusters` (the Python `range(2, max_clusters + 1)`). -/
def candidateKs (maxClusters : ℕ) : List ℕ := List.range' 2 (maxClusters - 1)

/-- The silhouette search over candidate cluster counts `2, …, maxClusters`,
started from the initial `(best_n, best_score)` pair `init`. -/
def selectBest (B : Backend) (X : List Emb) (init : ℕ × ℚ) (maxClusters : ℕ) : ℕ × ℚ :=
  (candidateKs maxClusters).foldl (searchStep B X) init

/-- The final label-assembly loop of `cluster_speakers`: walk the embedding
list, consuming one entry of `valid_labels` per present embedding, and
assigning the most common cluster id at every absent embedding. -/
def fillLabels (mostCommon : ℕ) : List (Option Emb) → List ℕ → List String
  | [], _ => []
  | none :: rest, vl =>
      ("speaker_" ++ Nat.repr mostCommon) :: fillLabels mostCommon rest vl
  | some _ :: rest, vl =>
      ("speaker_" ++ Nat.repr (vl.headD 0)) :: fillLabels mostCommon rest vl.tail

/-- The distance heuristic threshold of the source
(`two_speaker_threshold = 19`). -/
def two_speaker_threshold : ℚ := 19

/-- Model of `cluster_speakers(embeddings, segments)` from
`src/services/diarization/main.py` (unsupervised mode).  The `segments`
argument is received but never used, exactly as in the source. -/
def cluster_speakers (B : Backend) (embeddings : List (Option Emb))
    (segments : List Segment) : List String :=
  if embeddings.isEmpty then []
  else
    let valid_embeddings := embeddings.filterMap id
    if valid_embeddings.isEmpty then List.replicate embeddings.length "speaker_0"
    else
      let X := valid_embeddings
      if X.length < 2 then List.replicate embeddings.length "speaker_0"
      else
        let X_scaled := B.standardize X
        let max_distance := B.maxDist X_scaled
        let n_clusters :=
          if max_distance < two_speaker_threshold then 1
          else (selectBest B X_scaled (2, -1) (min 10 (X.length - 1))).1
        if n_clusters = 1 then List.replicate embeddings.length "speaker_0"
        else
          let valid_labels := B.wardCluster n_clusters X_scaled
          let most_common_label := argmaxIdx (bincount valid_labels)
          fillLabels most_common_label embeddings valid_labels

/-- The first pass of `cluster_speakers_personalized`: absent embeddings get
`"YOU"`, embeddings with cosine similarity at least the threshold get
`"YOU"`, the rest stay as the `None` placeholder to be filled after
sub-clustering. -/
def firstPass (B : Backend) (u : Emb) (t : ℚ) (embeddings : List (Option Emb)) :
    List (Option String) :=
  embeddings.map fun e =>
    match e with
    | none => some "YOU"
    | some emb => if t ≤ B.cosSim emb u then some "YOU" else none

/-- The pending-other bookkeeping of `cluster_speakers_personalized`: the
`(other_indices, other_embeddings)` pairs, collected in index order starting
at position `i`, for the valid embeddings whose similarity is strictly below
the threshold. -/
def otherPairsFrom (B : Backend) (u : Emb) (t : ℚ) (i : ℕ) :
    List (Option Emb) → List (ℕ × Emb)
  | [] => []
  | none :: rest => otherPairsFrom B u t (i + 1) rest
  | some emb :: rest =>
      if t ≤ B.cosSim emb u then otherPairsFrom B u t (i + 1) rest
      else (i, emb) :: otherPairsFrom B u t (i + 1) rest

/-- Whether an input entry becomes a pending-other candidate: a present
embedding whose cosine similarity to the reference is strictly below the
threshold. -/
def isPending (B : Backend) (u : Emb) (t : ℚ) : Option Emb → Bool
  | none => false
  | some e => decide (B.cosSim e u < t)

/-- Filling the `None` placeholders of the first pass with the sub-cluster
labels, in order — the model of `all_labels[other_idx] = other_labels[idx]`. -/
def fillOther : List (Option String) → List String → List String
  | [], _ => []
  | some s :: rest, ol => s :: fillOther rest ol
  | none :: rest, ol => ol.headD "" :: fillOther rest ol.tail

/-- The sub-clustering of the pending-other embeddings in
`cluster_speakers_personalized`: with two or more pending embeddings, run the
standardize → max-distance → silhouette-search procedure capped at 5 clusters
with acceptance gate `best_score > 0.2`, labelling one cluster `"OTHER"` and
several clusters `"OTHER_<id>"`; with exactly one pending embedding label it
`"OTHER"` directly. -/
def otherLabels (B : Backend) (others : List (ℕ × Emb)) : List String :=
  let other_embeddings := others.map Prod.snd
  if 1 < other_embeddings.length then
    let X := other_embeddings
    let X_scaled := B.standardize X
    let max_distance := B.maxDist X_scaled
    let n_clusters :=
      if max_distance < 19 ∨ X.length < 2 then 1
      else
        let best := selectBest B X_scaled (1, -1) (min 5 (X.length - 1))
        if (0.2 : ℚ) < best.2 then best.1 else 1
    if n_clusters = 1 then List.replicate other_embeddings.length "OTHER"
    else (B.wardCluster n_clusters X_scaled).map fun l => "OTHER_" ++ Nat.repr l
  else if other_embeddings.length = 1 then ["OTHER"]
  else []

/-- Model of `cluster_speakers_personalized(embeddings, user_embedding,
similarity_threshold)` from `src/services/diarization/main.py`. -/
def cluster_speakers_personalized (B : Backend) (embeddings : List (Option Emb))
    (user_embedding : Emb) (similarity_threshold : ℚ) : List String :=
  if embeddings.isEmpty then []
  else
    let valid_embeddings := embeddings.filterMap id
    if valid_embeddings.isEmpty then List.replicate embeddings.length "YOU"
    else
      let all_labels := firstPass B user_embedding similarity_threshold embeddings
      let others := otherPairsFrom B user_embedding similarity_threshold 0 embeddings
      fillOther all_labels (otherLabels B others)

/-- Model of the clustering dispatch of the `/diarize` endpoint
(`diarize_audio`): the personalized path is taken only when a user embedding
is provided and has exactly 512 components (with the default threshold 0.45);
otherwise the unsupervised path runs. -/
def chooseClustering (B : Backend) (embeddings : List (Option Emb))
    (segment_list : List Segment) (user_emb : Option Emb) : List String :=
  match user_emb with
  | some u =>
      if u.length = 512 then
        cluster_speakers_personalized B embeddings u (0.45 : ℚ)
      else cluster_speakers B embeddings segment_list
  | none => cluster_speakers B embeddings segment_list

/-- The silhouette score of candidate cluster count `n` on matrix `X`, as the
search loop computes it. -/
def score (B : Backend) (X : List Emb) (n : ℕ) : ℚ :=
  B.silhouette X (B.wardCluster n X)

/-- The standardized valid-embedding matrix that `cluster_speakers`
clusters. -/
def scaledValid (B : Backend) (emb : List (Option Emb)) : List Emb :=
  B.standardize (emb.filterMap id)

/-- The scored candidates of the search: those whose Ward partition keeps
more than one effective cluster (the others are skipped). -/
def scoredKs (B : Backend) (X : List Emb) (maxClusters : ℕ) : List ℕ :=
  (candidateKs maxClusters).filter fun k =>
    decide (1 < (B.wardCluster k X).dedup.length)

/-- A label of the `"OTHER"` family: either plain `"OTHER"` or
`"OTHER_<cluster-id>"`. -/
def isOtherLabel (s : String) : Prop :=
  s = "OTHER" ∨ ∃ k : ℕ, s = "OTHER_" ++ Nat.repr k

/-- The output labels sitting at the valid (embedding-present) input
positions, in order. -/
def labelsAtValid (emb : List (Option Emb)) (out : List String) : List String :=
  ((emb.zip out).filter fun p => p.1.isSome).map Prod.snd

/-- `m` is, among the cluster ids `l`, the strictly most frequent one with
ties broken by the lowest id. -/
def IsMostFrequentLowest (l : List ℕ) (m : ℕ) : Prop :=
  m ∈ l ∧ (∀ j, l.count j ≤ l.count m) ∧ ∀ j, l.count j = l.count m → m ≤ j

/-- A concrete backend instance, used to exhibit satisfiable hypotheses on
concrete inputs.  The theorems below hold for every backend. -/
def testBackend : Backend where
  standardize := id
  maxDist := fun _ => 0
  wardCluster := fun n X => (List.range X.length).map (fun i => i % n)
  silhouette := fun _ _ => 0
  cosSim := fun e _ => e.headD 0
  standardize_length := fun _ => rfl
  wardCluster_length := fun n X => by simp

/-- A second concrete backend whose maximal pairwise distance defeats the
single-speaker short-circuit and whose silhouette score passes every gate. -/
def testBackend2 : Backend where
  standardize := id
  maxDist := fun _ => 19
  wardCluster := fun n X => (List.range X.length).map (fun i => i % n)
  silhouette := fun _ _ => 1
  cosSim := fun e _ => e.headD 0
  standardize_length := fun _ => rfl
  wardCluster_length := fun n X => by simp

/-- The label-assembly loop emits exactly one label per input embedding. -/
theorem fillLabels_length (m : ℕ) (l : List (Option Emb)) (vl : List ℕ) :
    (fillLabels m l vl).length = l.length := by
  induction l generalizing vl with
  | nil => rfl
  | cons e rest ih => cases e <;> simp [fillLabels, ih]

/-- Placeholder filling emits exactly one label per first-pass entry. -/
theorem fillOther_length (fp : List (Option String)) (ol : List String) :
    (fillOther fp ol).length = fp.length := by
  induction fp generalizing ol with
  | nil => rfl
  | cons e rest ih => cases e <;> simp [fillOther, ih]

/-- Unsupervised clustering preserves the input length. -/
theorem cluster_speakers_length (B : Backend) (emb : List (Option Emb))
    (segs : List Segment) : (cluster_speakers B emb segs).length = emb.length := by
  unfold cluster_speakers
  split
  · next h => simp [List.isEmpty_iff] at h; simp [h]
  · dsimp only
    split
    · simp
    · split
      · simp
      · split
        · simp
        · split
          · simp
          · exact fillLabels_length _ _ _

/-- Personalized clustering preserves the input length. -/
theorem cluster_speakers_personalized_length (B : Backend)
    (emb : List (Option Emb)) (u : Emb) (t : ℚ) :
    (cluster_speakers_personalized B emb u t).length = emb.length := by
  unfold cluster_speakers_personalized
  split
  · next h => simp [List.isEmpty_iff] at h; simp [h]
  · dsimp only
    split
    · simp
    · simp [fillOther_length, firstPass]

/-- C1.  Index alignment: for every input list of embeddings, both `cluster`
(unsupervised) and `cluster_personalized` return exactly one label per input
index — in particular the empty input yields the empty output. -/
theorem C1_index_alignment (B : Backend) (emb : List (Option Emb))
    (segs : List Segment) (u : Emb) (t : ℚ) :
    (cluster_speakers B emb segs).length = emb.length ∧
      (cluster_speakers_personalized B emb u t).length = emb.length ∧
      cluster_speakers B [] segs = [] ∧
      cluster_speakers_personalized B [] u t = [] :=
  ⟨cluster_speakers_length B emb segs,
   cluster_speakers_personalized_length B emb u t, rfl, rfl⟩

/-- C2.  Precondition rejection: when the reference embedding does not have
exactly 512 components, the `/diarize` dispatch never enters the personalized
clustering computation — it falls through to the unsupervised path. -/
theorem C2_dimension_precondition (B : Backend) (emb : List (Option Emb))
    (segs : List Segment) (u : Emb) (h : u.length ≠ 512) :
    chooseClustering B emb segs (some u) = cluster_speakers B emb segs := by
  simp [chooseClustering, h]

/-- C2 witness: a 3-component reference embedding is routed to the
unsupervised path. -/
theorem C2_dimension_precondition_witness :
    ([(0 : ℚ), 0, 0].length ≠ 512) ∧
      chooseClustering testBackend [some [1], none] [] (some [(0 : ℚ), 0, 0]) =
        cluster_speakers testBackend [some [1], none] [] :=
  ⟨by decide,
   C2_dimension_precondition testBackend [some [1], none] [] [(0 : ℚ), 0, 0]
     (by decide)⟩

/-- C10.  Purity: the unsupervised clustering result depends only on the
embedding list — the auxiliary `segments` argument never influences the
output, and equal embedding lists give identical label lists. -/
theorem C10_purity (B : Backend) (emb : List (Option Emb))
    (segs1 segs2 : List Segment) :
    cluster_speakers B emb segs1 = cluster_speakers B emb segs2 := rfl

/-- C9.  Degenerate-input fallback: a non-empty input with zero valid
embeddings yields `"speaker_0"` everywhere in unsupervised mode and `"YOU"`
everywhere in personalized mode, and an input with exactly one valid
embedding yields `"speaker_0"` everywhere in unsupervised mode. -/
theorem C9_degenerate_fallback (B : Backend) (emb : List (Option Emb))
    (segs : List Segment) (u : Emb) (t : ℚ) (hne : emb ≠ []) :
    (emb.filterMap id = [] →
      cluster_speakers B emb segs = List.replicate emb.length "speaker_0" ∧
        cluster_speakers_personalized B emb u t =
          List.replicate emb.length "YOU") ∧
      ((emb.filterMap id).length = 1 →
        cluster_speakers B emb segs = List.replicate emb.length "speaker_0") := by
  constructor
  · intro hz
    constructor
    · unfold cluster_speakers
      simp [List.isEmpty_iff, hne, hz]
    · unfold cluster_speakers_personalized
      simp [List.isEmpty_iff, hne, hz]
  · intro h1
    unfold cluster_speakers
    have hnz : ¬emb.filterMap id = [] := by
      intro hc; rw [hc] at h1; simp at h1
    simp only [List.isEmpty_iff, hne, if_false, hnz, h1]
    simp [hnz, h1]

/-- C9 witness: the all-`None` input and a single-valid input hit the
degenerate fallbacks. -/
theorem C9_degenerate_fallback_witness :
    (([none, none] : List (Option Emb)) ≠ [] ∧
      (([none, none] : List (Option Emb)).filterMap id = [] →
        cluster_speakers testBackend [none, none] [] =
            List.replicate 2 "speaker_0" ∧
          cluster_speakers_personalized testBackend [none, none] [0] 0 =
            List.replicate 2 "YOU")) ∧
      (([some [1], none] : List (Option Emb)) ≠ [] ∧
        ((([some [1], none] : List (Option Emb)).filterMap id).length = 1 →
          cluster_speakers testBackend [some [1], none] [] =
            List.replicate 2 "speaker_0")) :=
  ⟨⟨by decide,
    (C9_degenerate_fallback testBackend [none, none] [] [0] 0 (by decide)).1⟩,
   ⟨by decide,
    (C9_degenerate_fallback testBackend [some [1], none] [] [0] 0 (by decide)).2⟩⟩

/-- C3.  Single-speaker short-circuit: with at least two valid embeddings,
when the maximal pairwise distance on the standardized valid matrix is
strictly below 19, `cluster` yields `"speaker_0"` at every index. -/
theorem C3_short_circuit (B : Backend) (emb : List (Option Emb))
    (segs : List Segment) (h2 : 2 ≤ (emb.filterMap id).length)
    (hd : B.maxDist (B.standardize (emb.filterMap id)) < 19) :
    cluster_speakers B emb segs = List.replicate emb.length "speaker_0" := by
  have hne : emb ≠ [] := by
    intro hc; subst hc; simp at h2
  have hv : emb.filterMap id ≠ [] := by
    intro hc; rw [hc] at h2; simp at h2
  have hlen : ¬(emb.filterMap id).length < 2 := by omega
  unfold cluster_speakers
  simp [List.isEmpty_iff, hne, hv, hlen, two_speaker_threshold, hd]

/-- C3 witness: two valid embeddings at distance 0 collapse to one speaker. -/
theorem C3_short_circuit_witness :
    (2 ≤ (([some [1], none, some [2]] : List (Option Emb)).filterMap id).length) ∧
      testBackend.maxDist
          (testBackend.standardize
            (([some [1], none, some [2]] : List (Option Emb)).filterMap id)) < 19 ∧
      cluster_speakers testBackend [some [1], none, some [2]] [] =
        List.replicate 3 "speaker_0" :=
  ⟨by decide, by decide,
   C3_short_circuit testBackend [some [1], none, some [2]] [] (by decide) (by decide)⟩

/-- One search step never decreases the recorded best score. -/
theorem searchStep_snd_le (B : Backend) (X : List Emb) (best : ℕ × ℚ) (n : ℕ) :
    best.2 ≤ (searchStep B X best n).2 := by
  unfold searchStep
  dsimp only
  split
  · split
    · next h => exact le_of_lt h
    · exact le_refl _
  · exact le_refl _

/-- A search step that does not return its input records the scanned
candidate together with its strictly improved score. -/
theorem searchStep_ne (B : Backend) (X : List Emb) (best : ℕ × ℚ) (n : ℕ)
    (h : searchStep B X best n ≠ best) :
    searchStep B X best n = (n, score B X n) ∧
      1 < (B.wardCluster n X).dedup.length ∧ best.2 < score B X n := by
  unfold searchStep at h ⊢
  dsimp only at h ⊢
  split at h
  · next hs =>
    split at h
    · next himp =>
      rw [if_pos hs, if_pos himp]
      exact ⟨rfl, hs, himp⟩
    · exact absurd rfl h
  · exact absurd rfl h

/-- The best score recorded by the search never decreases along the fold. -/
theorem foldl_searchStep_le (B : Backend) (X : List Emb) :
    ∀ (ks : List ℕ) (init : ℕ × ℚ),
      init.2 ≤ (ks.foldl (searchStep B X) init).2 := by
  intro ks
  induction ks with
  | nil => intro init; exact le_refl _
  | cons k ks ih =>
    intro init
    exact le_trans (searchStep_snd_le B X init k) (ih (searchStep B X init k))

/-- Every scored candidate's silhouette score is bounded by the recorded
best score of the fold. -/
theorem foldl_searchStep_max (B : Backend) (X : List Emb) :
    ∀ (ks : List ℕ) (init : ℕ × ℚ) (k : ℕ), k ∈ ks →
      1 < (B.wardCluster k X).dedup.length →
      score B X k ≤ (ks.foldl (searchStep B X) init).2 := by
  intro ks
  induction ks with
  | nil => intro init k hk; exact absurd hk (List.not_mem_nil k)
  | cons k' ks ih =>
    intro init k hk hs
    rcases List.mem_cons.mp hk with rfl | hk2
    · have h1 : score B X k ≤ (searchStep B X init k).2 := by
        unfold searchStep
        dsimp only
        rw [if_pos hs]
        split
        · exact le_refl _
        · next h => exact le_of_not_lt h
      exact le_trans h1 (foldl_searchStep_le B X ks _)
    · exact ih _ k hk2 hs

/-- The search fold either returns its initial pair unchanged, or returns a
scored candidate from the scanned list together with its score, strictly
above the initial score. -/
theorem foldl_searchStep_cases (B : Backend) (X : List Emb) :
    ∀ (ks : List ℕ) (init : ℕ × ℚ),
      ks.foldl (searchStep B X) init = init ∨
        ((ks.foldl (searchStep B X) init).1 ∈ ks ∧
          1 < (B.wardCluster (ks.foldl (searchStep B X) init).1 X).dedup.length ∧
          score B X (ks.foldl (searchStep B X) init).1 =
            (ks.foldl (searchStep B X) init).2 ∧
          init.2 < (ks.foldl (searchStep B X) init).2) := by
  intro ks
  induction ks with
  | nil => intro init; exact Or.inl rfl
  | cons k ks ih =>
    intro init
    have hfold : (k :: ks).foldl (searchStep B X) init
        = ks.foldl (searchStep B X) (searchStep B X init k) := rfl
    by_cases he : searchStep B X init k = init
    · rw [hfold, he]
      rcases ih init with h | ⟨h1, h2, h3, h4⟩
      · exact Or.inl h
      · exact Or.inr ⟨List.mem_cons_of_mem _ h1, h2, h3, h4⟩
    · obtain ⟨heq, hsk, hik⟩ := searchStep_ne B X init k he
      rw [hfold, heq]
      rcases ih (k, score B X k) with h | ⟨h1, h2, h3, h4⟩
      · rw [h]
        exact Or.inr ⟨List.mem_cons_self k ks, hsk, rfl, hik⟩
      · exact Or.inr ⟨List.mem_cons_of_mem _ h1, h2, h3, lt_trans hik h4⟩

/-- Tie-breaking of the search: when the fold strictly improved on its
initial score, the recorded candidate is the first — hence, on an increasing
scan, the smallest — scored candidate attaining the recorded score. -/
theorem foldl_searchStep_tie (B : Backend) (X : List Emb) :
    ∀ (ks : List ℕ) (init : ℕ × ℚ), ks.Pairwise (· < ·) →
      init.2 < (ks.foldl (searchStep B X) init).2 →
      ∀ k ∈ ks, 1 < (B.wardCluster k X).dedup.length →
        score B X k = (ks.foldl (searchStep B X) init).2 →
        (ks.foldl (searchStep B X) init).1 ≤ k := by
  intro ks
  induction ks with
  | nil => intro init _ hlt; exact absurd hlt (lt_irrefl _)
  | cons k' ks ih =>
    intro init hp hlt k hk hs hscore
    rw [List.pairwise_cons] at hp
    obtain ⟨hal, hp'⟩ := hp
    have hfold : (k' :: ks).foldl (searchStep B X) init
        = ks.foldl (searchStep B X) (searchStep B X init k') := rfl
    by_cases he : searchStep B X init k' = init
    · rw [hfold, he] at hlt hscore ⊢
      rcases List.mem_cons.mp hk with rfl | hk2
      · exfalso
        have hle : score B X k ≤ init.2 := by
          by_contra hgt
          push_neg at hgt
          have hstep : searchStep B X init k = (k, score B X k) := by
            unfold score at hgt ⊢
            unfold searchStep
            dsimp only
            rw [if_pos hs, if_pos hgt]
          rw [hstep] at he
          have h2 : init.2 = score B X k := by rw [← he]
          exact absurd hgt (by rw [h2]; exact lt_irrefl _)
        have := lt_of_le_of_lt hle hlt
        rw [hscore] at this
        exact lt_irrefl _ this
      · exact ih init hp' hlt k hk2 hs hscore
    · obtain ⟨heq, hsk, hik⟩ := searchStep_ne B X init k' he
      rw [hfold, heq] at hlt hscore ⊢
      rcases foldl_searchStep_cases B X ks (k', score B X k') with hcase | ⟨m1, m2, m3, m4⟩
      · rw [hcase]
        rcases List.mem_cons.mp hk with rfl | hk2
        · exact le_refl _
        · exact le_of_lt (hal k hk2)
      · rcases List.mem_cons.mp hk with rfl | hk2
        · exfalso
          have m4' : score B X k < (ks.foldl (searchStep B X) (k, score B X k)).2 := m4
          exact absurd m4' (not_lt.mpr (le_of_eq hscore.symm))
        · exact ih (k', score B X k') hp' m4 k hk2 hs hscore

/-- Membership in the scored candidate list, unfolded. -/
theorem mem_scoredKs (B : Backend) (X : List Emb) (m k : ℕ) :
    k ∈ scoredKs B X m ↔
      k ∈ candidateKs m ∧ 1 < (B.wardCluster k X).dedup.length := by
  simp [scoredKs, List.mem_filter]

/-- Every scanned candidate count is at least 2. -/
theorem candidateKs_two_le (m k : ℕ) (h : k ∈ candidateKs m) : 2 ≤ k :=
  (List.mem_range'_1.mp h).1

/-- The scan order is strictly increasing. -/
theorem candidateKs_pairwise (m : ℕ) : (candidateKs m).Pairwise (· < ·) := by
  unfold candidateKs
  exact List.pairwise_lt_range' _ _

/-- In the non-short-circuit branch, `cluster_speakers` labels the input via
the Ward partition at the cluster count chosen by the silhouette search. -/
theorem cluster_speakers_search_eq (B : Backend) (emb : List (Option Emb))
    (segs : List Segment) (h2 : 2 ≤ (emb.filterMap id).length)
    (hss : ¬B.maxDist (B.standardize (emb.filterMap id)) < 19)
    (hn1 : (selectBest B (B.standardize (emb.filterMap id)) (2, -1)
        (min 10 ((emb.filterMap id).length - 1))).1 ≠ 1) :
    cluster_speakers B emb segs =
      fillLabels
        (argmaxIdx (bincount (B.wardCluster
          (selectBest B (B.standardize (emb.filterMap id)) (2, -1)
              (min 10 ((emb.filterMap id).length - 1))).1
          (B.standardize (emb.filterMap id)))))
        emb
        (B.wardCluster
          (selectBest B (B.standardize (emb.filterMap id)) (2, -1)
              (min 10 ((emb.filterMap id).length - 1))).1
          (B.standardize (emb.filterMap id))) := by
  have hne : emb ≠ [] := by intro hc; subst hc; simp at h2
  have hv : emb.filterMap id ≠ [] := by intro hc; rw [hc] at h2; simp at h2
  have hlen2 : ¬(emb.filterMap id).length < 2 := by omega
  unfold cluster_speakers
  simp [List.isEmpty_iff, hne, hv, hlen2, two_speaker_threshold, hss, hn1]

/-- C4.  Cluster-count selection: when the short-circuit does not apply, the
search scans candidate counts 2 … min(10, valid−1) in increasing order,
skipping counts whose partition collapses to one effective cluster; the
selected count is a scored candidate whose silhouette score is maximal among
scored candidates, and since only a strictly greater score displaces the
current best, equal scores keep the earlier (smaller) count; the final
labelling uses the selected count. -/
theorem C4_cluster_count_selection (B : Backend) (emb : List (Option Emb))
    (segs : List Segment) (h2 : 2 ≤ (emb.filterMap id).length)
    (hss : ¬B.maxDist (scaledValid B emb) < 19)
    (hex : ∃ k ∈ scoredKs B (scaledValid B emb)
        (min 10 ((emb.filterMap id).length - 1)),
      (-1 : ℚ) < score B (scaledValid B emb) k) :
    (selectBest B (scaledValid B emb) (2, -1)
          (min 10 ((emb.filterMap id).length - 1))).1 ∈
        scoredKs B (scaledValid B emb) (min 10 ((emb.filterMap id).length - 1)) ∧
      (∀ k ∈ scoredKs B (scaledValid B emb)
          (min 10 ((emb.filterMap id).length - 1)),
        score B (scaledValid B emb) k ≤
          score B (scaledValid B emb)
            (selectBest B (scaledValid B emb) (2, -1)
                (min 10 ((emb.filterMap id).length - 1))).1) ∧
      (∀ k ∈ scoredKs B (scaledValid B emb)
          (min 10 ((emb.filterMap id).length - 1)),
        score B (scaledValid B emb) k =
            score B (scaledValid B emb)
              (selectBest B (scaledValid B emb) (2, -1)
                  (min 10 ((emb.filterMap id).length - 1))).1 →
          (selectBest B (scaledValid B emb) (2, -1)
              (min 10 ((emb.filterMap id).length - 1))).1 ≤ k) ∧
      cluster_speakers B emb segs =
        fillLabels
          (argmaxIdx (bincount (B.wardCluster
            (selectBest B (scaledValid B emb) (2, -1)
                (min 10 ((emb.filterMap id).length - 1))).1
            (scaledValid B emb))))
          emb
          (B.wardCluster
            (selectBest B (scaledValid B emb) (2, -1)
                (min 10 ((emb.filterMap id).length - 1))).1
            (scaledValid B emb)) := by
  obtain ⟨k0, hk0m, hk0⟩ := hex
  obtain ⟨hk0c, hk0s⟩ :=
    (mem_scoredKs B (scaledValid B emb)
      (min 10 ((emb.filterMap id).length - 1)) k0).mp hk0m
  have hfold : selectBest B (scaledValid B emb) (2, -1)
        (min 10 ((emb.filterMap id).length - 1))
      = (candidateKs (min 10 ((emb.filterMap id).length - 1))).foldl
          (searchStep B (scaledValid B emb)) (2, -1) := rfl
  have hmax0 : score B (scaledValid B emb) k0 ≤
      (selectBest B (scaledValid B emb) (2, -1)
        (min 10 ((emb.filterMap id).length - 1))).2 := by
    rw [hfold]
    exact foldl_searchStep_max B (scaledValid B emb) _ _ k0 hk0c hk0s
  have hinit : (-1 : ℚ) < (selectBest B (scaledValid B emb) (2, -1)
      (min 10 ((emb.filterMap id).length - 1))).2 :=
    lt_of_lt_of_le hk0 hmax0
  have hcases := foldl_searchStep_cases B (scaledValid B emb)
    (candidateKs (min 10 ((emb.filterMap id).length - 1))) (2, -1)
  rw [← hfold] at hcases
  rcases hcases with hceq | ⟨m1, m2, m3, m4⟩
  · exfalso; rw [hceq] at hinit; exact lt_irrefl _ hinit
  · have hrs := (mem_scoredKs B (scaledValid B emb)
      (min 10 ((emb.filterMap id).length - 1)) _).mpr ⟨m1, m2⟩
    refine ⟨hrs, ?_, ?_, ?_⟩
    · intro k hk
      obtain ⟨hkc, hks⟩ := (mem_scoredKs B (scaledValid B emb)
        (min 10 ((emb.filterMap id).length - 1)) k).mp hk
      have hb := foldl_searchStep_max B (scaledValid B emb)
        (candidateKs (min 10 ((emb.filterMap id).length - 1))) (2, -1) k hkc hks
      rw [← hfold] at hb
      rw [m3]
      exact hb
    · intro k hk hkeq
      obtain ⟨hkc, hks⟩ := (mem_scoredKs B (scaledValid B emb)
        (min 10 ((emb.filterMap id).length - 1)) k).mp hk
      have htie := foldl_searchStep_tie B (scaledValid B emb)
        (candidateKs (min 10 ((emb.filterMap id).length - 1))) (2, -1)
        (candidateKs_pairwise _)
      rw [← hfold] at htie
      exact htie hinit k hkc hks (hkeq.trans m3)
    · have hn1 : (selectBest B (scaledValid B emb) (2, -1)
          (min 10 ((emb.filterMap id).length - 1))).1 ≠ 1 := by
        have := candidateKs_two_le _ _ m1
        omega
      exact cluster_speakers_search_eq B emb segs h2 hss hn1

/-- C4 witness: four separated valid embeddings scan candidates 2 and 3;
with equal scores the first-seen smaller count 2 is kept and used. -/
theorem C4_cluster_count_selection_witness :
    (2 ≤ (([some [1], some [2], some [3], some [4]] :
        List (Option Emb)).filterMap id).length) ∧
      (¬testBackend2.maxDist
          (scaledValid testBackend2 [some [1], some [2], some [3], some [4]]) < 19) ∧
      (∃ k ∈ scoredKs testBackend2
          (scaledValid testBackend2 [some [1], some [2], some [3], some [4]])
          (min 10
            ((([some [1], some [2], some [3], some [4]] :
              List (Option Emb)).filterMap id).length - 1)),
        (-1 : ℚ) < score testBackend2
          (scaledValid testBackend2 [some [1], some [2], some [3], some [4]]) k) ∧
      ((selectBest testBackend2
            (scaledValid testBackend2 [some [1], some [2], some [3], some [4]])
            (2, -1)
            (min 10
              ((([some [1], some [2], some [3], some [4]] :
                List (Option Emb)).filterMap id).length - 1))).1 ∈
          scoredKs testBackend2
            (scaledValid testBackend2 [some [1], some [2], some [3], some [4]])
            (min 10
              ((([some [1], some [2], some [3], some [4]] :
                List (Option Emb)).filterMap id).length - 1)) ∧
        (∀ k ∈ scoredKs testBackend2
            (scaledValid testBackend2 [some [1], some [2], some [3], some [4]])
            (min 10
              ((([some [1], some [2], some [3], some [4]] :
                List (Option Emb)).filterMap id).length - 1)),
          score testBackend2
              (scaledValid testBackend2 [some [1], some [2], some [3], some [4]]) k ≤
            score testBackend2
              (scaledValid testBackend2 [some [1], some [2], some [3], some [4]])
              (selectBest testBackend2
                  (scaledValid testBackend2
                    [some [1], some [2], some [3], some [4]])
                  (2, -1)
                  (min 10
                    ((([some [1], some [2], some [3], some [4]] :
                      List (Option Emb)).filterMap id).length - 1))).1) ∧
        (∀ k ∈ scoredKs testBackend2
            (scaledValid testBackend2 [some [1], some [2], some [3], some [4]])
            (min 10
              ((([some [1], some [2], some [3], some [4]] :
                List (Option Emb)).filterMap id).length - 1)),
          score testBackend2
                (scaledValid testBackend2 [some [1], some [2], some [3], some [4]]) k =
              score testBackend2
                (scaledValid testBackend2 [some [1], some [2], some [3], some [4]])
                (selectBest testBackend2
                    (scaledValid testBackend2
                      [some [1], some [2], some [3], some [4]])
                    (2, -1)
                    (min 10
                      ((([some [1], some [2], some [3], some [4]] :
                        List (Option Emb)).filterMap id).length - 1))).1 →
            (selectBest testBackend2
                (scaledValid testBackend2 [some [1], some [2], some [3], some [4]])
                (2, -1)
                (min 10
                  ((([some [1], some [2], some [3], some [4]] :
                    List (Option Emb)).filterMap id).length - 1))).1 ≤ k) ∧
        cluster_speakers testBackend2 [some [1], some [2], some [3], some [4]] [] =
          fillLabels
            (argmaxIdx (bincount (testBackend2.wardCluster
              (selectBest testBackend2
                  (scaledValid testBackend2 [some [1], some [2], some [3], some [4]])
                  (2, -1)
                  (min 10
                    ((([some [1], some [2], some [3], some [4]] :
                      List (Option Emb)).filterMap id).length - 1))).1
              (scaledValid testBackend2 [some [1], some [2], some [3], some [4]]))))
            [some [1], some [2], some [3], some [4]]
            (testBackend2.wardCluster
              (selectBest testBackend2
                  (scaledValid testBackend2 [some [1], some [2], some [3], some [4]])
                  (2, -1)
                  (min 10
                    ((([some [1], some [2], some [3], some [4]] :
                      List (Option Emb)).filterMap id).length - 1))).1
              (scaledValid testBackend2 [some [1], some [2], some [3], some [4]]))) :=
  ⟨by decide, by decide, by decide,
   C4_cluster_count_selection testBackend2 [some [1], some [2], some [3], some [4]]
     [] (by decide) (by decide) (by decide)⟩

/-- Correctness of the argmax scan: starting from a prefix whose maximum sits
first at position `bi` with value `v`, scanning the remainder returns the
index of the first maximal entry of the whole list. -/
theorem argmaxGo_spec :
    ∀ (xs pre : List ℕ) (v bi : ℕ), bi < pre.length → pre.getD bi 0 = v →
      (∀ j, j < pre.length → pre.getD j 0 ≤ v) →
      (∀ j, j < bi → pre.getD j 0 < v) →
      argmaxGo v bi pre.length xs < (pre ++ xs).length ∧
        (∀ j, j < (pre ++ xs).length →
          (pre ++ xs).getD j 0 ≤ (pre ++ xs).getD (argmaxGo v bi pre.length xs) 0) ∧
        ∀ j, j < argmaxGo v bi pre.length xs →
          (pre ++ xs).getD j 0 < (pre ++ xs).getD (argmaxGo v bi pre.length xs) 0 := by
  intro xs
  induction xs with
  | nil =>
    intro pre v bi hbi hval hmax hfirst
    rw [List.append_nil]
    unfold argmaxGo
    refine ⟨hbi, ?_, ?_⟩
    · intro j hj; rw [hval]; exact hmax j hj
    · intro j hj; rw [hval]; exact hfirst j hj
  | cons x xs ih =>
    intro pre v bi hbi hval hmax hfirst
    have hassoc : pre ++ x :: xs = (pre ++ [x]) ++ xs := by simp
    have hlen1 : (pre ++ [x]).length = pre.length + 1 := by simp
    have hgx : (pre ++ [x]).getD pre.length 0 = x := by
      rw [List.getD_append_right _ _ _ _ (le_refl _)]
      simp
    have hgpre : ∀ j, j < pre.length → (pre ++ [x]).getD j 0 = pre.getD j 0 :=
      fun j hj => List.getD_append _ _ _ _ hj
    rw [hassoc]
    show (argmaxGo v bi pre.length (x :: xs)) < _ ∧ _
    unfold argmaxGo
    by_cases hvx : v < x
    · rw [if_pos hvx]
      have hmain := ih (pre ++ [x]) x pre.length
        (by rw [hlen1]; omega)
        hgx
        (by
          intro j hj
          rw [hlen1] at hj
          rcases Nat.lt_succ_iff_lt_or_eq.mp hj with hj2 | hj2
          · rw [hgpre j hj2]
            exact le_of_lt (lt_of_le_of_lt (hmax j hj2) hvx)
          · subst hj2; rw [hgx])
        (by
          intro j hj
          rw [hgpre j hj]
          exact lt_of_le_of_lt (hmax j hj) hvx)
      rw [hlen1] at hmain
      exact hmain
    · rw [if_neg hvx]
      push_neg at hvx
      have hvalx : (pre ++ [x]).getD bi 0 = v := by
        rw [hgpre bi hbi]; exact hval
      have hmain := ih (pre ++ [x]) v bi
        (by rw [hlen1]; omega)
        hvalx
        (by
          intro j hj
          rw [hlen1] at hj
          rcases Nat.lt_succ_iff_lt_or_eq.mp hj with hj2 | hj2
          · rw [hgpre j hj2]; exact hmax j hj2
          · subst hj2; rw [hgx]; exact hvx)
        (by
          intro j hj
          rw [hgpre j (lt_trans hj hbi)]
          exact hfirst j hj)
      rw [hlen1] at hmain
      exact hmain

/-- The argmax of a non-empty list is an in-range index of the first maximal
entry. -/
theorem argmaxIdx_spec (l : List ℕ) (h : l ≠ []) :
    argmaxIdx l < l.length ∧
      (∀ j, j < l.length → l.getD j 0 ≤ l.getD (argmaxIdx l) 0) ∧
      ∀ j, j < argmaxIdx l → l.getD j 0 < l.getD (argmaxIdx l) 0 := by
  cases l with
  | nil => exact absurd rfl h
  | cons x xs =>
    have hmain := argmaxGo_spec xs [x] x 0 (by simp) (by simp)
      (by intro j hj; simp at hj; subst hj; simp) (by intro j hj; omega)
    simpa [argmaxIdx] using hmain

/-- Every element is bounded by the running maximum of the list. -/
theorem le_foldr_max (l : List ℕ) (x : ℕ) (h : x ∈ l) : x ≤ l.foldr max 0 := by
  induction l with
  | nil => exact absurd h (List.not_mem_nil x)
  | cons y ys ih =>
    rcases List.mem_cons.mp h with rfl | h2
    · exact le_max_left _ _
    · exact le_trans (ih h2) (le_max_right _ _)

/-- The bincount has one entry per id up to the maximum. -/
theorem bincount_length (l : List ℕ) :
    (bincount l).length = l.foldr max 0 + 1 := by
  simp [bincount]

/-- Within range, the bincount entry at `k` is the multiplicity of `k`. -/
theorem bincount_getD (l : List ℕ) (k : ℕ) (hk : k < l.foldr max 0 + 1) :
    (bincount l).getD k 0 = l.count k := by
  unfold bincount
  rw [List.getD_eq_getElem _ _ (by simpa using hk)]
  simp

/-- Ids beyond the maximum do not occur. -/
theorem count_eq_zero_of_max_lt (l : List ℕ) (k : ℕ)
    (hk : l.foldr max 0 < k) : l.count k = 0 := by
  rw [List.count_eq_zero]
  intro hmem
  exact absurd (le_foldr_max l k hmem) (by omega)

/-- `np.bincount(...).argmax()` picks, among the ids of a non-empty list,
the most frequent one, with ties broken by the lowest id. -/
theorem argmax_bincount_spec (l : List ℕ) (h : l ≠ []) :
    IsMostFrequentLowest l (argmaxIdx (bincount l)) := by
  have hbne : bincount l ≠ [] := by
    intro hc
    have := bincount_length l
    rw [hc] at this
    simp at this
  obtain ⟨hrange, hmaxx, hfirst⟩ := argmaxIdx_spec (bincount l) hbne
  rw [bincount_length] at hrange
  set m := argmaxIdx (bincount l) with hm
  have hcm : (bincount l).getD m 0 = l.count m := bincount_getD l m hrange
  have hcount : ∀ j, l.count j ≤ l.count m := by
    intro j
    by_cases hj : j < l.foldr max 0 + 1
    · have := hmaxx j (by rw [bincount_length]; exact hj)
      rw [hcm, bincount_getD l j hj] at this
      exact this
    · rw [count_eq_zero_of_max_lt l j (by omega)]
      exact Nat.zero_le _
  have hpos : 0 < l.count m := by
    obtain ⟨x, hx⟩ := List.exists_mem_of_ne_nil l h
    exact lt_of_lt_of_le (List.count_pos_iff.mpr hx) (hcount x)
  refine ⟨List.count_pos_iff.mp hpos, hcount, ?_⟩
  intro j hj
  by_contra hlt
  push_neg at hlt
  have hjr : j < l.foldr max 0 + 1 := by omega
  have := hfirst j hlt
  rw [hcm, bincount_getD l j hjr] at this
  omega

/-- An index whose embedding is absent receives the most-common label in the
assembly loop. -/
theorem fillLabels_getD_none (m : ℕ) :
    ∀ (l : List (Option Emb)) (vl : List ℕ) (i : ℕ),
      l.get? i = some none →
      (fillLabels m l vl).getD i "" = "speaker_" ++ Nat.repr m := by
  intro l
  induction l with
  | nil => intro vl i h; simp at h
  | cons e rest ih =>
    intro vl i h
    cases i with
    | zero =>
      simp at h
      subst h
      rfl
    | succ i =>
      have h2 : rest.get? i = some none := h
      cases e with
      | none => exact ih vl i h2
      | some x => exact ih vl.tail i h2

/-- The labels emitted at valid positions by the assembly loop are the
rendered cluster ids, in order. -/
theorem labelsAtValid_fillLabels (m : ℕ) :
    ∀ (l : List (Option Emb)) (vl : List ℕ),
      vl.length = (l.filterMap id).length →
      labelsAtValid l (fillLabels m l vl) =
        vl.map fun k => "speaker_" ++ Nat.repr k := by
  intro l
  induction l with
  | nil =>
    intro vl hlen
    simp at hlen
    simp [labelsAtValid, hlen]
  | cons e rest ih =>
    intro vl hlen
    cases e with
    | none =>
      have := ih vl (by simpa using hlen)
      simpa [labelsAtValid, fillLabels] using this
    | some x =>
      cases vl with
      | nil => simp at hlen
      | cons v vs =>
        have hlen2 : vs.length = (rest.filterMap id).length := by simpa using hlen
        have := ih vs hlen2
        simpa [labelsAtValid, fillLabels] using this

/-- On a uniform `"speaker_0"` output the valid positions carry one
`"speaker_0"` per valid embedding. -/
theorem labelsAtValid_replicate (l : List (Option Emb)) :
    labelsAtValid l (List.replicate l.length "speaker_0") =
      List.replicate (l.filterMap id).length "speaker_0" := by
  induction l with
  | nil => rfl
  | cons e rest ih =>
    cases e with
    | none => simpa [labelsAtValid, List.replicate] using ih
    | some x => simpa [labelsAtValid, List.replicate] using ih

/-- The uniform output renders the all-zero id list. -/
theorem replicate_speaker_zero (n : ℕ) :
    List.replicate n "speaker_0" =
      (List.replicate n (0 : ℕ)).map fun k => "speaker_" ++ Nat.repr k := by
  rw [List.map_replicate]
  have h0 : "speaker_" ++ Nat.repr 0 = "speaker_0" := by decide
  rw [h0]

/-- Id 0 is the most frequent (and lowest) id of the all-zero list. -/
theorem isMostFrequentLowest_replicate_zero (n : ℕ) (h : 0 < n) :
    IsMostFrequentLowest (List.replicate n 0) 0 := by
  refine ⟨List.mem_replicate.mpr ⟨by omega, rfl⟩, ?_, ?_⟩
  · intro j
    have h1 : (List.replicate n (0 : ℕ)).count j ≤ n :=
      le_trans (List.count_le_length _ _) (by simp)
    have h2 : (List.replicate n (0 : ℕ)).count 0 = n := by simp
    omega
  · intro j _
    exact Nat.zero_le j

/-- Branch dichotomy of `cluster_speakers` on inputs with a valid embedding:
either every index gets `"speaker_0"`, or the output is assembled from a
Ward id list with one id per valid embedding. -/
theorem cluster_speakers_cases (B : Backend) (emb : List (Option Emb))
    (segs : List Segment) (h : emb.filterMap id ≠ []) :
    cluster_speakers B emb segs = List.replicate emb.length "speaker_0" ∨
      ∃ vl : List ℕ, vl.length = (emb.filterMap id).length ∧
        cluster_speakers B emb segs =
          fillLabels (argmaxIdx (bincount vl)) emb vl := by
  have hne : emb ≠ [] := by intro hc; subst hc; exact h rfl
  unfold cluster_speakers
  simp only [List.isEmpty_iff, hne, if_false, h]
  split
  · exact Or.inl rfl
  · split
    · exact Or.inl rfl
    · split
      · exact Or.inl rfl
      · right
        refine ⟨_, ?_, rfl⟩
        rw [B.wardCluster_length, B.standardize_length]

/-- C5.  Majority fallback: whenever at least one embedding is valid, the
labels at the valid positions render a list of cluster ids, and every index
whose embedding is absent receives the rendering of the id most frequent
among them, ties broken by the lowest id. -/
theorem C5_majority_fallback (B : Backend) (emb : List (Option Emb))
    (segs : List Segment) (h : emb.filterMap id ≠ []) :
    ∃ ids : List ℕ,
      labelsAtValid emb (cluster_speakers B emb segs) =
          ids.map (fun k => "speaker_" ++ Nat.repr k) ∧
        ∃ m, IsMostFrequentLowest ids m ∧
          ∀ i, emb.get? i = some none →
            (cluster_speakers B emb segs).getD i "" = "speaker_" ++ Nat.repr m := by
  have hpos : 0 < (emb.filterMap id).length := List.length_pos.mpr h
  rcases cluster_speakers_cases B emb segs h with heq | ⟨vl, hlen, heq⟩
  · refine ⟨List.replicate (emb.filterMap id).length 0, ?_, 0, ?_, ?_⟩
    · rw [heq, labelsAtValid_replicate, replicate_speaker_zero]
    · exact isMostFrequentLowest_replicate_zero _ hpos
    · intro i hi
      obtain ⟨hilt, -⟩ := List.get?_eq_some.mp hi
      rw [heq, List.getD_eq_getElem _ _ (by simpa using hilt)]
      simp
      rfl
  · have hvlne : vl ≠ [] := by
      intro hc
      rw [hc] at hlen
      simp at hlen
      omega
    refine ⟨vl, ?_, argmaxIdx (bincount vl), argmax_bincount_spec vl hvlne, ?_⟩
    · rw [heq]
      exact labelsAtValid_fillLabels _ emb vl hlen
    · intro i hi
      rw [heq]
      exact fillLabels_getD_none _ emb vl i hi

/-- C5 witness: three valid embeddings clustered into ids `[0, 1, 0]`; the
absent index receives `"speaker_0"`, the most frequent id. -/
theorem C5_majority_fallback_witness :
    (([some [1], some [2], none, some [3]] : List (Option Emb)).filterMap id ≠ []) ∧
      ∃ ids : List ℕ,
        labelsAtValid [some [1], some [2], none, some [3]]
            (cluster_speakers testBackend2 [some [1], some [2], none, some [3]] []) =
            ids.map (fun k => "speaker_" ++ Nat.repr k) ∧
          ∃ m, IsMostFrequentLowest ids m ∧
            ∀ i, ([some [1], some [2], none, some [3]] :
                List (Option Emb)).get? i = some none →
              (cluster_speakers testBackend2
                  [some [1], some [2], none, some [3]] []).getD i "" =
                "speaker_" ++ Nat.repr m :=
  ⟨by decide,
   C5_majority_fallback testBackend2 [some [1], some [2], none, some [3]] []
     (by decide)⟩

/-- A position already labelled by the first pass keeps its label through
placeholder filling. -/
theorem fillOther_getD_some :
    ∀ (fp : List (Option String)) (ol : List String) (i : ℕ) (s : String),
      fp.get? i = some (some s) → (fillOther fp ol).getD i "" = s := by
  intro fp
  induction fp with
  | nil => intro ol i s h; simp at h
  | cons os rest ih =>
    intro ol i s h
    cases i with
    | zero =>
      cases os with
      | none => simp at h
      | some s2 =>
        simp at h
        subst h
        rfl
    | succ i =>
      have h2 : rest.get? i = some (some s) := h
      cases os with
      | none => exact ih ol.tail i s h2
      | some s2 => exact ih ol i s h2

/-- Pending pairs collected from position `i0` onwards carry indices at
least `i0`. -/
theorem otherPairsFrom_le (B : Backend) (u : Emb) (t : ℚ) :
    ∀ (l : List (Option Emb)) (i0 : ℕ) (p : ℕ × Emb),
      p ∈ otherPairsFrom B u t i0 l → i0 ≤ p.1 := by
  intro l
  induction l with
  | nil => intro i0 p h; simp [otherPairsFrom] at h
  | cons e rest ih =>
    intro i0 p h
    cases e with
    | none =>
      have := ih (i0 + 1) p h
      omega
    | some x =>
      rw [otherPairsFrom] at h
      split at h
      · have := ih (i0 + 1) p h
        omega
      · rcases List.mem_cons.mp h with rfl | h2
        · exact le_refl _
        · have := ih (i0 + 1) p h2
          omega

/-- The `j`-th pending pair's position receives the `j`-th sub-cluster
label. -/
theorem otherPairsFrom_getD_fill (B : Backend) (u : Emb) (t : ℚ) :
    ∀ (l : List (Option Emb)) (i0 : ℕ) (ol : List String) (j : ℕ) (p : ℕ × Emb),
      (otherPairsFrom B u t i0 l).get? j = some p →
      (fillOther (firstPass B u t l) ol).getD (p.1 - i0) "" = ol.getD j "" := by
  intro l
  induction l with
  | nil => intro i0 ol j p h; simp [otherPairsFrom] at h
  | cons e rest ih =>
    intro i0 ol j p h
    cases e with
    | none =>
      have hge : i0 + 1 ≤ p.1 :=
        otherPairsFrom_le B u t rest (i0 + 1) p (List.get?_mem h)
      have hsub : p.1 - i0 = (p.1 - (i0 + 1)) + 1 := by omega
      rw [hsub]
      exact ih (i0 + 1) ol j p h
    | some x =>
      rw [otherPairsFrom] at h
      by_cases hsim : t ≤ B.cosSim x u
      · rw [if_pos hsim] at h
        have hge : i0 + 1 ≤ p.1 :=
          otherPairsFrom_le B u t rest (i0 + 1) p (List.get?_mem h)
        have hsub : p.1 - i0 = (p.1 - (i0 + 1)) + 1 := by omega
        rw [hsub]
        have hfill : fillOther (firstPass B u t (some x :: rest)) ol
            = "YOU" :: fillOther (firstPass B u t rest) ol := by
          simp [firstPass, fillOther, if_pos hsim]
        rw [hfill]
        exact ih (i0 + 1) ol j p h
      · rw [if_neg hsim] at h
        have hfill : fillOther (firstPass B u t (some x :: rest)) ol
            = ol.headD "" :: fillOther (firstPass B u t rest) ol.tail := by
          simp [firstPass, fillOther, if_neg hsim]
        rw [hfill]
        cases j with
        | zero =>
          simp at h
          subst h
          rw [show ((i0, x).1 - i0) = 0 from by omega]
          cases ol <;> simp
        | succ j =>
          have h2 : (otherPairsFrom B u t (i0 + 1) rest).get? j = some p := h
          have hge : i0 + 1 ≤ p.1 :=
            otherPairsFrom_le B u t rest (i0 + 1) p (List.get?_mem h2)
          have hsub : p.1 - i0 = (p.1 - (i0 + 1)) + 1 := by omega
          rw [hsub]
          have htl : ol.tail.getD j "" = ol.getD (j + 1) "" := by
            cases ol <;> rfl
          rw [show ((ol.headD "" :: fillOther (firstPass B u t rest) ol.tail).getD
              ((p.1 - (i0 + 1)) + 1) "")
              = (fillOther (firstPass B u t rest) ol.tail).getD (p.1 - (i0 + 1)) ""
            from rfl, ← htl]
          exact ih (i0 + 1) ol.tail j p h2

/-- There is one pending pair per pending input entry. -/
theorem otherPairsFrom_length (B : Backend) (u : Emb) (t : ℚ) :
    ∀ (l : List (Option Emb)) (i0 : ℕ),
      (otherPairsFrom B u t i0 l).length = l.countP (isPending B u t) := by
  intro l
  induction l with
  | nil => intro i0; rfl
  | cons e rest ih =>
    intro i0
    cases e with
    | none => simp [otherPairsFrom, List.countP_cons, isPending, ih (i0 + 1)]
    | some x =>
      by_cases hsim : t ≤ B.cosSim x u
      · rw [otherPairsFrom, if_pos hsim]
        simp [List.countP_cons, isPending, not_lt.mpr hsim, ih (i0 + 1)]
      · rw [otherPairsFrom, if_neg hsim]
        push_neg at hsim
        simp [List.countP_cons, isPending, hsim, ih (i0 + 1)]

/-- A pending input entry yields a pending pair carrying its index and
embedding. -/
theorem otherPairsFrom_get?_of_pending (B : Backend) (u : Emb) (t : ℚ) :
    ∀ (l : List (Option Emb)) (i0 i : ℕ) (e : Emb),
      l.get? i = some (some e) → B.cosSim e u < t →
      ∃ j, (otherPairsFrom B u t i0 l).get? j = some (i0 + i, e) := by
  intro l
  induction l with
  | nil => intro i0 i e h; simp at h
  | cons x rest ih =>
    intro i0 i e h hsim
    cases i with
    | zero =>
      simp at h
      subst h
      rw [otherPairsFrom, if_neg (not_le.mpr hsim)]
      exact ⟨0, rfl⟩
    | succ i =>
      have h2 : rest.get? i = some (some e) := h
      obtain ⟨j, hj⟩ := ih (i0 + 1) i e h2 hsim
      have harith : i0 + 1 + i = i0 + (i + 1) := by omega
      rw [harith] at hj
      cases x with
      | none => exact ⟨j, by rw [otherPairsFrom]; exact hj⟩
      | some y =>
        rw [otherPairsFrom]
        by_cases hy : t ≤ B.cosSim y u
        · rw [if_pos hy]
          exact ⟨j, hj⟩
        · rw [if_neg hy]
          exact ⟨j + 1, hj⟩

/-- Without valid embeddings there are no pending pairs. -/
theorem otherPairsFrom_nil_of_filterMap (B : Backend) (u : Emb) (t : ℚ) :
    ∀ (l : List (Option Emb)) (i0 : ℕ), l.filterMap id = [] →
      otherPairsFrom B u t i0 l = [] := by
  intro l
  induction l with
  | nil => intro i0 _; rfl
  | cons e rest ih =>
    intro i0 h
    cases e with
    | none => exact ih (i0 + 1) (by simpa using h)
    | some x => simp at h

/-- Every first-pass entry is a placeholder or the label `"YOU"`. -/
theorem firstPass_mem (B : Backend) (u : Emb) (t : ℚ) (l : List (Option Emb)) :
    ∀ os ∈ firstPass B u t l, os = none ∨ os = some "YOU" := by
  intro os hos
  rw [firstPass, List.mem_map] at hos
  obtain ⟨e, -, heq⟩ := hos
  subst heq
  cases e with
  | none => exact Or.inr rfl
  | some x =>
    by_cases hsim : t ≤ B.cosSim x u
    · exact Or.inr (by simp [if_pos hsim])
    · exact Or.inl (by simp [if_neg hsim])

/-- An absent embedding is labelled `"YOU"` by the first pass. -/
theorem firstPass_get?_none (B : Backend) (u : Emb) (t : ℚ)
    (l : List (Option Emb)) (i : ℕ) (h : l.get? i = some none) :
    (firstPass B u t l).get? i = some (some "YOU") := by
  rw [firstPass, List.get?_map, h]
  rfl

/-- An embedding at least as similar as the threshold is labelled `"YOU"` by
the first pass. -/
theorem firstPass_get?_you (B : Backend) (u : Emb) (t : ℚ)
    (l : List (Option Emb)) (i : ℕ) (e : Emb) (h : l.get? i = some (some e))
    (hsim : t ≤ B.cosSim e u) :
    (firstPass B u t l).get? i = some (some "YOU") := by
  rw [firstPass, List.get?_map, h]
  simp [if_pos hsim]

/-- The sub-clustering output is either a uniform `"OTHER"` list (one label
per pending pair) or the rendered Ward ids of the accepted partition. -/
theorem otherLabels_shape (B : Backend) (others : List (ℕ × Emb)) :
    otherLabels B others = List.replicate others.length "OTHER" ∨
      otherLabels B others =
        (B.wardCluster
          (selectBest B (B.standardize (others.map Prod.snd)) (1, -1)
            (min 5 ((others.map Prod.snd).length - 1))).1
          (B.standardize (others.map Prod.snd))).map
          fun l => "OTHER_" ++ Nat.repr l := by
  unfold otherLabels
  dsimp only
  split
  · split
    · left; simp
    · split
      · split
        · left; simp
        · right; rfl
      · left; simp
  · split
    · next h2 =>
      rw [List.length_map] at h2
      rw [h2]
      exact Or.inl rfl
    · next h1 h2 =>
      rw [List.length_map] at h1 h2
      have h0 : others.length = 0 := by omega
      rw [h0]
      exact Or.inl rfl

/-- One sub-cluster label per pending pair. -/
theorem otherLabels_length (B : Backend) (others : List (ℕ × Emb)) :
    (otherLabels B others).length = others.length := by
  rcases otherLabels_shape B others with h | h
  · rw [h, List.length_replicate]
  · rw [h, List.length_map, B.wardCluster_length, B.standardize_length,
      List.length_map]

/-- Every sub-cluster label belongs to the `"OTHER"` family. -/
theorem mem_otherLabels (B : Backend) (others : List (ℕ × Emb)) (s : String)
    (h : s ∈ otherLabels B others) : isOtherLabel s := by
  rcases otherLabels_shape B others with he | he
  · rw [he] at h
    exact Or.inl (List.eq_of_mem_replicate h)
  · rw [he] at h
    obtain ⟨k, -, hk⟩ := List.mem_map.mp h
    exact Or.inr ⟨k, hk.symm⟩

/-- A single pending pair is labelled `"OTHER"` directly. -/
theorem otherLabels_single (B : Backend) (others : List (ℕ × Emb))
    (h : others.length = 1) : otherLabels B others = ["OTHER"] := by
  unfold otherLabels
  dsimp only
  rw [List.length_map, h]
  norm_num

/-- On inputs with a valid embedding, personalized clustering is the first
pass with its placeholders filled by the sub-cluster labels. -/
theorem cpp_eq_fill (B : Backend) (emb : List (Option Emb)) (u : Emb) (t : ℚ)
    (h : emb.filterMap id ≠ []) :
    cluster_speakers_personalized B emb u t =
      fillOther (firstPass B u t emb)
        (otherLabels B (otherPairsFrom B u t 0 emb)) := by
  have hne : emb ≠ [] := by intro hc; subst hc; exact h rfl
  unfold cluster_speakers_personalized
  simp [List.isEmpty_iff, hne, h]

/-- A present embedding makes the valid list non-empty. -/
theorem filterMap_ne_nil_of_get? (emb : List (Option Emb)) (i : ℕ) (e : Emb)
    (h : emb.get? i = some (some e)) : emb.filterMap id ≠ [] := by
  intro hc
  have hmem : some e ∈ emb := List.get?_mem h
  have : e ∈ emb.filterMap id := List.mem_filterMap.mpr ⟨some e, hmem, rfl⟩
  rw [hc] at this
  simp at this

/-- C6.  Personalized labeling rule: an absent embedding is labelled
`"YOU"`; a valid embedding with similarity at least the threshold is
labelled `"YOU"`; a valid embedding with similarity strictly below the
threshold receives an `"OTHER"`-family label; and when exactly one pending
candidate exists, it is labelled exactly `"OTHER"`. -/
theorem C6_personalized_labeling (B : Backend) (emb : List (Option Emb))
    (u : Emb) (t : ℚ) :
    (∀ i, emb.get? i = some none →
        (cluster_speakers_personalized B emb u t).getD i "" = "YOU") ∧
      (∀ i e, emb.get? i = some (some e) → t ≤ B.cosSim e u →
        (cluster_speakers_personalized B emb u t).getD i "" = "YOU") ∧
      (∀ i e, emb.get? i = some (some e) → B.cosSim e u < t →
        isOtherLabel ((cluster_speakers_personalized B emb u t).getD i "")) ∧
      ((otherPairsFrom B u t 0 emb).length = 1 →
        ∀ p ∈ otherPairsFrom B u t 0 emb,
          (cluster_speakers_personalized B emb u t).getD p.1 "" = "OTHER") := by
  refine ⟨?_, ?_, ?_, ?_⟩
  · intro i hi
    by_cases hval : emb.filterMap id = []
    · have hne : emb ≠ [] := by intro hc; subst hc; simp at hi
      obtain ⟨hlt, -⟩ := List.get?_eq_some.mp hi
      unfold cluster_speakers_personalized
      simp only [List.isEmpty_iff, hne, if_false, hval]
      simp [hne, List.getElem?_replicate, hlt]
    · rw [cpp_eq_fill B emb u t hval]
      exact fillOther_getD_some _ _ i _ (firstPass_get?_none B u t emb i hi)
  · intro i e hi hsim
    rw [cpp_eq_fill B emb u t (filterMap_ne_nil_of_get? emb i e hi)]
    exact fillOther_getD_some _ _ i _ (firstPass_get?_you B u t emb i e hi hsim)
  · intro i e hi hsim
    rw [cpp_eq_fill B emb u t (filterMap_ne_nil_of_get? emb i e hi)]
    obtain ⟨j, hj⟩ := otherPairsFrom_get?_of_pending B u t emb 0 i e hi hsim
    rw [Nat.zero_add] at hj
    have hfill := otherPairsFrom_getD_fill B u t emb 0
      (otherLabels B (otherPairsFrom B u t 0 emb)) j (i, e) hj
    have hjlt : j < (otherPairsFrom B u t 0 emb).length :=
      (List.get?_eq_some.mp hj).1
    have hollen := otherLabels_length B (otherPairsFrom B u t 0 emb)
    have hmem : (otherLabels B (otherPairsFrom B u t 0 emb)).getD j "" ∈
        otherLabels B (otherPairsFrom B u t 0 emb) := by
      rw [List.getD_eq_getElem _ _ (by omega)]
      exact List.getElem_mem _
    have hout : (fillOther (firstPass B u t emb)
          (otherLabels B (otherPairsFrom B u t 0 emb))).getD i "" =
        (otherLabels B (otherPairsFrom B u t 0 emb)).getD j "" := by
      simpa using hfill
    rw [hout]
    exact mem_otherLabels B _ _ hmem
  · intro hlen p hp
    have hval : emb.filterMap id ≠ [] := by
      intro hc
      rw [otherPairsFrom_nil_of_filterMap B u t emb 0 hc] at hlen
      simp at hlen
    rw [cpp_eq_fill B emb u t hval, otherLabels_single B _ hlen]
    obtain ⟨n, hn⟩ := List.mem_iff_get.mp hp
    have hj : (otherPairsFrom B u t 0 emb).get? n.val = some p := by
      rw [List.get?_eq_get n.isLt, hn]
    have hfill := otherPairsFrom_getD_fill B u t emb 0 ["OTHER"] n.val p hj
    have hn0 : n.val = 0 := by
      have := n.isLt
      omega
    rw [hn0] at hfill
    simpa using hfill

/-- C6 witness: with threshold 1 and similarity given by the head entry, the
absent index and the similar index get `"YOU"`, the dissimilar index gets an
`"OTHER"`-family label, and — being the only pending candidate — is labelled
exactly `"OTHER"`. -/
theorem C6_personalized_labeling_witness :
    ((cluster_speakers_personalized testBackend [some [2], none, some [0]]
        [9] 1).getD 1 "" = "YOU") ∧
      ((cluster_speakers_personalized testBackend [some [2], none, some [0]]
        [9] 1).getD 0 "" = "YOU") ∧
      isOtherLabel ((cluster_speakers_personalized testBackend
        [some [2], none, some [0]] [9] 1).getD 2 "") ∧
      ((cluster_speakers_personalized testBackend [some [2], none, some [0]]
        [9] 1).getD 2 "" = "OTHER") :=
  ⟨(C6_personalized_labeling testBackend [some [2], none, some [0]] [9] 1).1
      1 (by decide),
   (C6_personalized_labeling testBackend [some [2], none, some [0]] [9] 1).2.1
      0 [2] (by decide) (by decide),
   (C6_personalized_labeling testBackend [some [2], none, some [0]] [9] 1).2.2.1
      2 [0] (by decide) (by decide),
   (C6_personalized_labeling testBackend [some [2], none, some [0]] [9] 1).2.2.2
      (by decide) (2, [0]) (by decide)⟩

/-- In-range lookup in a replicated list. -/
theorem getD_replicate_of_lt {α : Type} (n i : ℕ) (a d : α) (h : i < n) :
    (List.replicate n a).getD i d = a := by
  rw [List.getD_eq_getElem _ _ (by simpa using h)]
  simp

/-- In-range lookup in a mapped list. -/
theorem getD_map_of_lt (w : List ℕ) (j : ℕ) (f : ℕ → String) (h : j < w.length) :
    (w.map f).getD j "" = f (w.getD j 0) := by
  rw [List.getD_eq_getElem _ _ (by simpa using h), List.getElem_map,
    List.getD_eq_getElem _ _ h]

/-- With at least two pending pairs and a small maximal distance, the
sub-clustering collapses to a single `"OTHER"` cluster. -/
theorem otherLabels_short (B : Backend) (others : List (ℕ × Emb))
    (h2 : 1 < others.length)
    (hd : B.maxDist (B.standardize (others.map Prod.snd)) < 19) :
    otherLabels B others = List.replicate others.length "OTHER" := by
  unfold otherLabels
  dsimp only
  rw [List.length_map, if_pos h2, if_pos (Or.inl hd)]
  norm_num

/-- When the best silhouette score does not exceed the 0.2 acceptance gate,
the sub-clustering falls back to a single `"OTHER"` cluster. -/
theorem otherLabels_gate_fail (B : Backend) (others : List (ℕ × Emb))
    (h2 : 1 < others.length)
    (hd : ¬B.maxDist (B.standardize (others.map Prod.snd)) < 19)
    (hg : (selectBest B (B.standardize (others.map Prod.snd)) (1, -1)
        (min 5 (others.length - 1))).2 ≤ 0.2) :
    otherLabels B others = List.replicate others.length "OTHER" := by
  unfold otherLabels
  dsimp only
  have hcond : ¬(B.maxDist (B.standardize (others.map Prod.snd)) < 19 ∨
      others.length < 2) := by
    push_neg
    exact ⟨not_lt.mp hd, by omega⟩
  rw [List.length_map, if_pos h2, if_neg hcond, if_neg (not_lt.mpr hg)]
  norm_num

/-- When the best silhouette score exceeds the 0.2 acceptance gate, the
pending pairs are labelled by the accepted Ward partition. -/
theorem otherLabels_gate_pass (B : Backend) (others : List (ℕ × Emb))
    (h2 : 1 < others.length)
    (hd : ¬B.maxDist (B.standardize (others.map Prod.snd)) < 19)
    (hg : (0.2 : ℚ) < (selectBest B (B.standardize (others.map Prod.snd)) (1, -1)
        (min 5 (others.length - 1))).2)
    (hn : (selectBest B (B.standardize (others.map Prod.snd)) (1, -1)
        (min 5 (others.length - 1))).1 ≠ 1) :
    otherLabels B others =
      (B.wardCluster
        (selectBest B (B.standardize (others.map Prod.snd)) (1, -1)
          (min 5 (others.length - 1))).1
        (B.standardize (others.map Prod.snd))).map
        fun l => "OTHER_" ++ Nat.repr l := by
  unfold otherLabels
  dsimp only
  have hcond : ¬(B.maxDist (B.standardize (others.map Prod.snd)) < 19 ∨
      others.length < 2) := by
    push_neg
    exact ⟨not_lt.mp hd, by omega⟩
  rw [List.length_map, if_pos h2, if_neg hcond, if_pos hg, if_neg hn]

/-- C7.  Sub-clustering acceptance gate: with two or more pending-other
candidates, a maximal pairwise distance under 19 labels all of them
`"OTHER"`; otherwise the silhouette search over 2 … min(5, n−1) accepts its
best count only when its score strictly exceeds 0.2 — on failure all pending
candidates are labelled `"OTHER"`, on success the accepted count comes from
the scanned range and the pending candidates receive `"OTHER_<id>"` labels
from its Ward partition. -/
theorem C7_subcluster_gate (B : Backend) (emb : List (Option Emb)) (u : Emb)
    (t : ℚ) (h2 : 2 ≤ (otherPairsFrom B u t 0 emb).length) :
    (B.maxDist (B.standardize ((otherPairsFrom B u t 0 emb).map Prod.snd)) < 19 →
      ∀ p ∈ otherPairsFrom B u t 0 emb,
        (cluster_speakers_personalized B emb u t).getD p.1 "" = "OTHER") ∧
      (¬B.maxDist (B.standardize ((otherPairsFrom B u t 0 emb).map Prod.snd)) < 19 →
        ((selectBest B
              (B.standardize ((otherPairsFrom B u t 0 emb).map Prod.snd)) (1, -1)
              (min 5 ((otherPairsFrom B u t 0 emb).length - 1))).2 ≤ 0.2 →
          ∀ p ∈ otherPairsFrom B u t 0 emb,
            (cluster_speakers_personalized B emb u t).getD p.1 "" = "OTHER") ∧
        ((0.2 : ℚ) < (selectBest B
              (B.standardize ((otherPairsFrom B u t 0 emb).map Prod.snd)) (1, -1)
              (min 5 ((otherPairsFrom B u t 0 emb).length - 1))).2 →
          (selectBest B
              (B.standardize ((otherPairsFrom B u t 0 emb).map Prod.snd)) (1, -1)
              (min 5 ((otherPairsFrom B u t 0 emb).length - 1))).1 ∈
            candidateKs (min 5 ((otherPairsFrom B u t 0 emb).length - 1)) ∧
          ∀ j p, (otherPairsFrom B u t 0 emb).get? j = some p →
            (cluster_speakers_personalized B emb u t).getD p.1 "" =
              "OTHER_" ++ Nat.repr
                ((B.wardCluster
                  (selectBest B
                    (B.standardize ((otherPairsFrom B u t 0 emb).map Prod.snd))
                    (1, -1)
                    (min 5 ((otherPairsFrom B u t 0 emb).length - 1))).1
                  (B.standardize
                    ((otherPairsFrom B u t 0 emb).map Prod.snd))).getD j 0))) := by
  have hPne : otherPairsFrom B u t 0 emb ≠ [] := by
    intro hc
    rw [hc] at h2
    simp at h2
  have hval : emb.filterMap id ≠ [] := by
    intro hc
    exact hPne (otherPairsFrom_nil_of_filterMap B u t emb 0 hc)
  have h1lt : 1 < (otherPairsFrom B u t 0 emb).length := by omega
  have hfillp : ∀ (ol : List String) (p : ℕ × Emb) (j : ℕ),
      (otherPairsFrom B u t 0 emb).get? j = some p →
      (fillOther (firstPass B u t emb) ol).getD p.1 "" = ol.getD j "" := by
    intro ol p j hj
    have := otherPairsFrom_getD_fill B u t emb 0 ol j p hj
    simpa using this
  constructor
  · intro hd p hp
    rw [cpp_eq_fill B emb u t hval, otherLabels_short B _ h1lt hd]
    obtain ⟨n, hn⟩ := List.mem_iff_get.mp hp
    have hj : (otherPairsFrom B u t 0 emb).get? n.val = some p := by
      rw [List.get?_eq_get n.isLt, hn]
    rw [hfillp _ p n.val hj]
    exact getD_replicate_of_lt _ _ _ _ n.isLt
  · intro hd
    constructor
    · intro hg p hp
      rw [cpp_eq_fill B emb u t hval, otherLabels_gate_fail B _ h1lt hd hg]
      obtain ⟨n, hn⟩ := List.mem_iff_get.mp hp
      have hj : (otherPairsFrom B u t 0 emb).get? n.val = some p := by
        rw [List.get?_eq_get n.isLt, hn]
      rw [hfillp _ p n.val hj]
      exact getD_replicate_of_lt _ _ _ _ n.isLt
    · intro hg
      have hinit : (-1 : ℚ) < (selectBest B
          (B.standardize ((otherPairsFrom B u t 0 emb).map Prod.snd)) (1, -1)
          (min 5 ((otherPairsFrom B u t 0 emb).length - 1))).2 :=
        lt_trans (by norm_num) hg
      have hcases := foldl_searchStep_cases B
        (B.standardize ((otherPairsFrom B u t 0 emb).map Prod.snd))
        (candidateKs (min 5 ((otherPairsFrom B u t 0 emb).length - 1))) (1, -1)
      rcases hcases with hceq | ⟨m1, m2, m3, m4⟩
      · exfalso
        have : selectBest B
            (B.standardize ((otherPairsFrom B u t 0 emb).map Prod.snd)) (1, -1)
            (min 5 ((otherPairsFrom B u t 0 emb).length - 1)) = (1, -1) := hceq
        rw [this] at hinit
        exact lt_irrefl _ hinit
      · have hmem : (selectBest B
            (B.standardize ((otherPairsFrom B u t 0 emb).map Prod.snd)) (1, -1)
            (min 5 ((otherPairsFrom B u t 0 emb).length - 1))).1 ∈
            candidateKs (min 5 ((otherPairsFrom B u t 0 emb).length - 1)) := m1
        have hn1 : (selectBest B
            (B.standardize ((otherPairsFrom B u t 0 emb).map Prod.snd)) (1, -1)
            (min 5 ((otherPairsFrom B u t 0 emb).length - 1))).1 ≠ 1 := by
          have := candidateKs_two_le _ _ hmem
          omega
        refine ⟨hmem, ?_⟩
        intro j p hj
        rw [cpp_eq_fill B emb u t hval,
          otherLabels_gate_pass B _ h1lt hd hg hn1]
        rw [hfillp _ p j hj]
        have hjlt : j < (otherPairsFrom B u t 0 emb).length :=
          (List.get?_eq_some.mp hj).1
        exact getD_map_of_lt _ _ _ (by
          rw [B.wardCluster_length, B.standardize_length, List.length_map]
          exact hjlt)

/-- C7 witness: two identical-at-distance-0 pending candidates collapse to
`"OTHER"`; three spread pending candidates pass the 0.2 gate with count 2
and get `"OTHER_<id>"` labels. -/
theorem C7_subcluster_gate_witness :
    ((2 ≤ (otherPairsFrom testBackend [9] 1 0 [some [0], some [0, 1]]).length) ∧
      testBackend.maxDist (testBackend.standardize
        ((otherPairsFrom testBackend [9] 1 0
          [some [0], some [0, 1]]).map Prod.snd)) < 19 ∧
      ∀ p ∈ otherPairsFrom testBackend [9] 1 0 [some [0], some [0, 1]],
        (cluster_speakers_personalized testBackend [some [0], some [0, 1]]
          [9] 1).getD p.1 "" = "OTHER") ∧
      ((2 ≤ (otherPairsFrom testBackend2 [9] 1 0
          [some [0], some [0, 1], some [0, 2]]).length) ∧
        (¬testBackend2.maxDist (testBackend2.standardize
          ((otherPairsFrom testBackend2 [9] 1 0
            [some [0], some [0, 1], some [0, 2]]).map Prod.snd)) < 19) ∧
        ((0.2 : ℚ) < (selectBest testBackend2
            (testBackend2.standardize
              ((otherPairsFrom testBackend2 [9] 1 0
                [some [0], some [0, 1], some [0, 2]]).map Prod.snd)) (1, -1)
            (min 5 ((otherPairsFrom testBackend2 [9] 1 0
              [some [0], some [0, 1], some [0, 2]]).length - 1))).2) ∧
        ((selectBest testBackend2
              (testBackend2.standardize
                ((otherPairsFrom testBackend2 [9] 1 0
                  [some [0], some [0, 1], some [0, 2]]).map Prod.snd)) (1, -1)
              (min 5 ((otherPairsFrom testBackend2 [9] 1 0
                [some [0], some [0, 1], some [0, 2]]).length - 1))).1 ∈
            candidateKs (min 5 ((otherPairsFrom testBackend2 [9] 1 0
              [some [0], some [0, 1], some [0, 2]]).length - 1)) ∧
          ∀ j p, (otherPairsFrom testBackend2 [9] 1 0
              [some [0], some [0, 1], some [0, 2]]).get? j = some p →
            (cluster_speakers_personalized testBackend2
                [some [0], some [0, 1], some [0, 2]] [9] 1).getD p.1 "" =
              "OTHER_" ++ Nat.repr
                ((testBackend2.wardCluster
                  (selectBest testBackend2
                    (testBackend2.standardize
                      ((otherPairsFrom testBackend2 [9] 1 0
                        [some [0], some [0, 1], some [0, 2]]).map Prod.snd))
                    (1, -1)
                    (min 5 ((otherPairsFrom testBackend2 [9] 1 0
                      [some [0], some [0, 1], some [0, 2]]).length - 1))).1
                  (testBackend2.standardize
                    ((otherPairsFrom testBackend2 [9] 1 0
                      [some [0], some [0, 1], some [0, 2]]).map
                      Prod.snd))).getD j 0))) :=
  have hg : (0.2 : ℚ) < (selectBest testBackend2
      (testBackend2.standardize
        ((otherPairsFrom testBackend2 [9] 1 0
          [some [0], some [0, 1], some [0, 2]]).map Prod.snd)) (1, -1)
      (min 5 ((otherPairsFrom testBackend2 [9] 1 0
        [some [0], some [0, 1], some [0, 2]]).length - 1))).2 := by
    have h1 : (selectBest testBackend2
        (testBackend2.standardize
          ((otherPairsFrom testBackend2 [9] 1 0
            [some [0], some [0, 1], some [0, 2]]).map Prod.snd)) (1, -1)
        (min 5 ((otherPairsFrom testBackend2 [9] 1 0
          [some [0], some [0, 1], some [0, 2]]).length - 1))).2 = 1 := by decide
    rw [h1]
    norm_num
  ⟨⟨by decide, by decide,
    (C7_subcluster_gate testBackend [some [0], some [0, 1]] [9] 1
      (by decide)).1 (by decide)⟩,
   ⟨by decide, by decide, hg,
    ((C7_subcluster_gate testBackend2 [some [0], some [0, 1], some [0, 2]]
      [9] 1 (by decide)).2 (by decide)).2 hg⟩⟩

/-- An `"OTHER"`-family label is never `"YOU"`. -/
theorem isOtherLabel_ne_you (s : String) (h : isOtherLabel s) : s ≠ "YOU" := by
  rcases h with rfl | ⟨k, rfl⟩
  · decide
  · intro hc
    have h2 := congrArg String.data hc
    rw [String.data_append] at h2
    have h3 := congrArg List.length h2
    rw [List.length_append] at h3
    have h4 : ("OTHER_".data).length = 6 := rfl
    have h5 : ("YOU".data).length = 3 := rfl
    omega

/-- The first pass leaves one placeholder per pending entry. -/
theorem firstPass_countP_none (B : Backend) (u : Emb) (t : ℚ)
    (l : List (Option Emb)) :
    (firstPass B u t l).countP (fun os => os.isNone) =
      l.countP (isPending B u t) := by
  induction l with
  | nil => rfl
  | cons e rest ih =>
    cases e with
    | none =>
      simp only [firstPass, List.map_cons, List.countP_cons] at ih ⊢
      simp [isPending, ih]
    | some x =>
      by_cases hsim : t ≤ B.cosSim x u
      · simp only [firstPass, List.map_cons, List.countP_cons] at ih ⊢
        simp [isPending, if_pos hsim, not_lt.mpr hsim, ih]
      · simp only [firstPass, List.map_cons, List.countP_cons] at ih ⊢
        simp [isPending, if_neg hsim, not_le.mp hsim, ih]

/-- Filling placeholders with labels never equal to `"YOU"`: the output's
non-`"YOU"` count is the placeholder count. -/
theorem fillOther_countP_ne :
    ∀ (fp : List (Option String)) (ol : List String),
      (∀ s ∈ ol, s ≠ "YOU") →
      (∀ os ∈ fp, os = none ∨ os = some "YOU") →
      (fillOther fp ol).countP (fun s => s != "YOU") =
        fp.countP (fun os => os.isNone) := by
  intro fp
  induction fp with
  | nil => intro ol _ _; rfl
  | cons os rest ih =>
    intro ol hol hfp
    cases os with
    | some s =>
      have hs : s = "YOU" := by
        rcases hfp (some s) (List.mem_cons_self _ _) with hc | hc
        · simp at hc
        · simpa using hc
      subst hs
      simp only [fillOther, List.countP_cons]
      rw [ih ol hol (fun os hos => hfp os (List.mem_cons_of_mem _ hos))]
      simp
    | none =>
      have hv : ¬ol.head?.getD "" = "YOU" := by
        cases ol with
        | nil => decide
        | cons a as =>
          simp
          exact hol a (List.mem_cons_self _ _)
      have hol2 : ∀ s ∈ ol.tail, s ≠ "YOU" := by
        intro s hs
        exact hol s (List.mem_of_mem_tail hs)
      simp only [fillOther, List.countP_cons]
      rw [ih ol.tail hol2 (fun os hos => hfp os (List.mem_cons_of_mem _ hos))]
      simp [hv]

/-- With exactly one label per placeholder, every output label comes from
the labels list or from the first pass. -/
theorem mem_fillOther :
    ∀ (fp : List (Option String)) (ol : List String),
      ol.length = fp.countP (fun os => os.isNone) →
      ∀ s ∈ fillOther fp ol, s ∈ ol ∨ some s ∈ fp := by
  intro fp
  induction fp with
  | nil => intro ol _ s hs; simp [fillOther] at hs
  | cons os rest ih =>
    intro ol hlen s hs
    cases os with
    | some s2 =>
      rw [show fillOther (some s2 :: rest) ol = s2 :: fillOther rest ol from rfl]
        at hs
      rcases List.mem_cons.mp hs with rfl | hs2
      · exact Or.inr (List.mem_cons_self _ _)
      · rcases ih ol (by simpa [List.countP_cons] using hlen) s hs2 with h1 | h1
        · exact Or.inl h1
        · exact Or.inr (List.mem_cons_of_mem _ h1)
    | none =>
      have hlen2 : ol.length = rest.countP (fun os => os.isNone) + 1 := by
        simpa [List.countP_cons] using hlen
      cases ol with
      | nil => simp at hlen2
      | cons a as =>
        rw [show fillOther (none :: rest) (a :: as)
            = a :: fillOther rest as from rfl] at hs
        rcases List.mem_cons.mp hs with rfl | hs2
        · exact Or.inl (List.mem_cons_self _ _)
        · rcases ih as (by simpa using hlen2) s hs2 with h1 | h1
          · exact Or.inl (List.mem_cons_of_mem _ h1)
          · exact Or.inr (List.mem_cons_of_mem _ h1)

/-- The number of non-`"YOU"` labels produced by personalized clustering is
exactly the number of pending-other candidates. -/
theorem cpp_otherCount (B : Backend) (emb : List (Option Emb)) (u : Emb)
    (t : ℚ) :
    (cluster_speakers_personalized B emb u t).countP (fun s => s != "YOU") =
      (otherPairsFrom B u t 0 emb).length := by
  by_cases hval : emb.filterMap id = []
  · rw [otherPairsFrom_nil_of_filterMap B u t emb 0 hval]
    by_cases hne : emb = []
    · subst hne; rfl
    · unfold cluster_speakers_personalized
      simp only [List.isEmpty_iff, hne, if_false, hval, if_true]
      simp [hne]
  · rw [cpp_eq_fill B emb u t hval,
      fillOther_countP_ne (firstPass B u t emb)
        (otherLabels B (otherPairsFrom B u t 0 emb))
        (fun s hs => isOtherLabel_ne_you s (mem_otherLabels B _ s hs))
        (firstPass_mem B u t emb),
      firstPass_countP_none, otherPairsFrom_length]

/-- Raising the threshold cannot lose pending candidates. -/
theorem otherPairsFrom_length_mono (B : Backend) (u : Emb) (t1 t2 : ℚ)
    (h : t1 ≤ t2) (emb : List (Option Emb)) :
    (otherPairsFrom B u t1 0 emb).length ≤
      (otherPairsFrom B u t2 0 emb).length := by
  rw [otherPairsFrom_length, otherPairsFrom_length]
  apply List.countP_mono_left
  intro e he hp
  cases e with
  | none => simp [isPending] at hp
  | some x =>
    simp only [isPending, decide_eq_true_eq] at hp ⊢
    exact lt_of_lt_of_le hp h

/-- C8.  Threshold monotonicity: for a fixed embedding list and reference,
raising the threshold cannot decrease the number of `"OTHER"`-family labels
— and every personalized label is `"YOU"` or of the `"OTHER"` family, so the
non-`"YOU"` count is exactly the `"OTHER"`-family count. -/
theorem C8_threshold_monotonicity (B : Backend) (emb : List (Option Emb))
    (u : Emb) (t1 t2 : ℚ) (h : t1 ≤ t2) :
    (cluster_speakers_personalized B emb u t1).countP (fun s => s != "YOU") ≤
        (cluster_speakers_personalized B emb u t2).countP
          (fun s => s != "YOU") ∧
      ∀ t : ℚ, ∀ s ∈ cluster_speakers_personalized B emb u t,
        s = "YOU" ∨ isOtherLabel s := by
  constructor
  · rw [cpp_otherCount, cpp_otherCount]
    exact otherPairsFrom_length_mono B u t1 t2 h emb
  · intro t s hs
    by_cases hval : emb.filterMap id = []
    · by_cases hne : emb = []
      · subst hne; simp [cluster_speakers_personalized] at hs
      · unfold cluster_speakers_personalized at hs
        simp only [List.isEmpty_iff, hne, if_false, hval, if_true] at hs
        simp [hne] at hs
        exact Or.inl hs
    · rw [cpp_eq_fill B emb u t hval] at hs
      have hlen : (otherLabels B (otherPairsFrom B u t 0 emb)).length =
          (firstPass B u t emb).countP (fun os => os.isNone) := by
        rw [otherLabels_length, otherPairsFrom_length, firstPass_countP_none]
      rcases mem_fillOther _ _ hlen s hs with h1 | h1
      · exact Or.inr (mem_otherLabels B _ s h1)
      · rcases firstPass_mem B u t emb (some s) h1 with hc | hc
        · simp at hc
        · exact Or.inl (by simpa using hc)

/-- C8 witness: raising the threshold from 0 to 1 on a concrete input does
not decrease the `"OTHER"`-family count. -/
theorem C8_threshold_monotonicity_witness :
    ((0 : ℚ) ≤ 1) ∧
      ((cluster_speakers_personalized testBackend [some [2], none, some [0]]
            [9] 0).countP (fun s => s != "YOU") ≤
          (cluster_speakers_personalized testBackend [some [2], none, some [0]]
            [9] 1).countP (fun s => s != "YOU") ∧
        ∀ t : ℚ, ∀ s ∈ cluster_speakers_personalized testBackend
            [some [2], none, some [0]] [9] t,
          s = "YOU" ∨ isOtherLabel s) :=
  ⟨by decide,
   C8_threshold_monotonicity testBackend [some [2], none, some [0]] [9] 0 1
     (by decide)⟩

end Diarization
